import Mathlib

/-!
Verification of the U-bundle routing core (`gdsfactory/routing/get_bundle_u.py`).

We shallowly embed the routing module over rational coordinates (Python floats
are modelled as `ℚ`).  Python lists become `List`, in-place mutation of the
caller's `ports2` list is made observable by returning the final state of that
list, `raise` becomes `Except.error`, and `print` output is collected in a
`List String`.  The two collaborator interfaces (the single-pair waypoint
router `generate_manhattan_waypoints` and the side router
`route_ports_to_side`) are not part of the module and are taken as function
parameters.
-/

namespace BundleU

/-- A 2D waypoint (a numpy array of two floats in the source). -/
structure Pt where
  x : ℚ
  y : ℚ
deriving DecidableEq, Repr

/-- A port: named connection point with a position, an outward orientation in
degrees and a width.  Mirrors `gdsfactory.port.Port` as used by the router
(only `name`, `x`, `y`, `orientation`, `width` are relevant). -/
structure Port where
  name : String
  x : ℚ
  y : ℚ
  orientationDeg : ℚ
  width : ℚ
deriving DecidableEq, Repr

/-- `port.center` as a point. -/
def Port.pos (p : Port) : Pt := ⟨p.x, p.y⟩

/-- The bundle axis, the string `"X"`/`"Y"` of the source. -/
inductive Axis
  | X
  | Y
deriving DecidableEq, Repr

/-- The errors the module can raise.  `countMismatch` and `mixedOrientations`
are the two explicit `ValueError`s of `_get_bundle_udirect_waypoints` /
`_get_bundle_uindirect_waypoints`; `emptySequence` is Python's `ValueError`
from `min()`/`max()` on an empty list; `indexError` is `ports1[0]` on an empty
list; `nameError` is Python's `UnboundLocalError` when a branch reads a local
variable (`dy`, or the `*_route_directives` lists) that was never assigned;
`noConnections` is the `ValueError("No connections generated!")`;
`unsupportedConfiguration` is the error kind the spec demands for unsupported
orientation pairs (the source never raises it, it is included so that its
absence can be stated). -/
inductive RErr
  | countMismatch
  | mixedOrientations
  | emptySequence
  | indexError
  | nameError
  | noConnections
  | unsupportedConfiguration
deriving DecidableEq, Repr

/-- One invocation of the single-pair waypoint router: start port, end port and
the two straight lengths it is called with. -/
structure Call where
  pstart : Port
  pend : Port
  startLen : ℚ
  endLen : ℚ
deriving DecidableEq, Repr

/-- Result of the direct bundle router: the produced connections, plus the
final state of the caller-supplied `ports2` list (the source sorts that list
in place, so the caller observes `ports2After` after the call). -/
structure DirectOut (α : Type) where
  conns : List α
  ports2After : List Port
deriving DecidableEq, Repr

/-- Python `min` over a list (`none` on the empty list, where Python raises). -/
def listMin : List ℚ → Option ℚ
  | [] => none
  | x :: xs => some (xs.foldl min x)

/-- Python `max` over a list (`none` on the empty list, where Python raises). -/
def listMax : List ℚ → Option ℚ
  | [] => none
  | x :: xs => some (xs.foldl max x)

/-- The coordinate perpendicular to the bundle axis: `y` for a horizontal
bundle (axis `"X"`), `x` for a vertical one. -/
def perpKey (axis : Axis) (p : Port) : ℚ :=
  match axis with
  | .X => p.y
  | .Y => p.x

/-- `0.5 * (min(perp) + max(perp))` over a port list's perpendicular
coordinates: the `x_cut`/`y_cut` of the source (both routers compute it from
`ports2`). -/
def midCut (axis : Axis) (ports : List Port) : ℚ :=
  ((listMin (ports.map (perpKey axis))).getD 0 +
    (listMax (ports.map (perpKey axis))).getD 0) / 2

/-- `_groups`: split a port list at `cut`.  The source keys on `p.x` when
`axis == "Y"` and on `p.y` otherwise, i.e. on the perpendicular coordinate;
ports with coordinate `≤ cut` (ties included) form the first group. -/
def groups (ports : List Port) (cut : ℚ) (axis : Axis) : List Port × List Port :=
  match axis with
  | .Y =>
    (ports.filter (fun p => decide (p.x ≤ cut)),
     ports.filter (fun p => decide (¬ p.x ≤ cut)))
  | .X =>
    (ports.filter (fun p => decide (p.y ≤ cut)),
     ports.filter (fun p => decide (¬ p.y ≤ cut)))

/-- Python's stable `list.sort(key=...)` (ascending in the rational key).
A stable ascending sort's output is uniquely determined by the key, so the
structurally recursive insertion sort used here agrees with CPython's
Timsort on every input. -/
def sortByQ (key : Port → ℚ) (l : List Port) : List Port :=
  l.insertionSort (fun a b => key a ≤ key b)

/-- The routing loop of `_get_bundle_udirect_waypoints`: call the single-pair
router `f` on each matched pair, increasing both straight lengths by
`separation` after every pair. -/
def routeLoop {α : Type} (f : Port → Port → ℚ → ℚ → α)
    (pairs : List (Port × Port)) (s e sep : ℚ) : List α :=
  match pairs with
  | [] => []
  | pq :: rest => f pq.1 pq.2 s e :: routeLoop f rest (s + sep) (e + sep) sep

/-- The signed longitudinal offset `dx`/`dy` of `_get_bundle_udirect_waypoints`:
computed from `xs_start[0]`/`xs_end[0]` (resp. `ys_…`), i.e. from the FIRST
port of each caller list (in original order; `xs_end` is materialised before
`ports2` is sorted), with the sign depending on the start orientation. -/
def longOffset (ports1 ports2 : List Port) : ℚ :=
  match ports1, ports2 with
  | p0 :: _, q0 :: _ =>
    if p0.orientationDeg = 0 then p0.x - q0.x
    else if p0.orientationDeg = 180 then q0.x - p0.x
    else if p0.orientationDeg = 90 then p0.y - q0.y
    else if p0.orientationDeg = 270 then q0.y - p0.y
    else 0
  | _, _ => 0

/-- The bundle axis derived from the first start port's orientation:
`"X"` for orientations 0/180, `"Y"` otherwise. -/
def directAxis : List Port → Axis
  | [] => .X
  | p0 :: _ =>
    if p0.orientationDeg = 0 ∨ p0.orientationDeg = 180 then .X else .Y

/-- The cross-set split both routers perform: `ports1` is split by `_groups`
at the cut computed from `ports2`'s perpendicular extent (`midCut`), on the
axis derived from `ports1[0]`'s orientation. -/
def splitGroups (ports1 ports2 : List Port) : List Port × List Port :=
  groups ports1 (midCut (directAxis ports1) ports2) (directAxis ports1)

/-- The matched pairs of the direct router, in internal group order: split
`ports1` at the cut computed from `ports2`'s extent, sort the first group
descending and the second ascending on the perpendicular coordinate, sort
`ports2` ascending and partition it into a prefix for the first group and a
suffix (re-sorted descending) for the second, then zip.  This is lines
216-227 of the source, shared between the router embedding and the theorems
about it. -/
def directZipA (ports1 ports2 : List Port) :
    List (Port × Port) × List (Port × Port) :=
  let axis := directAxis ports1
  let gp := splitGroups ports1 ports2
  let g1 := sortByQ (fun p => -(perpKey axis p)) gp.1
  let g2 := sortByQ (fun p => perpKey axis p) gp.2
  let ports2s := sortByQ (fun p => perpKey axis p) ports2
  (g1.zip (ports2s.take gp.1.length),
   g2.zip (sortByQ (fun p => -(perpKey axis p)) (ports2s.drop gp.1.length)))

/-- The body of `_get_bundle_udirect_waypoints` after its two validations:
`p0` is `ports1[0]`.  In the `axis == "Y"` branch the source assigns `dy`
only for orientations `90` and `270` (or `None`); any other start orientation
leaves `dy` unbound and `max(end_straight_length, dy)` raises
`UnboundLocalError`, embedded as `.error .nameError` (unreachable in the
`"X"` branch, where the axis choice guarantees orientation 0 or 180). -/
def udirectCore {α : Type} (f : Port → Port → ℚ → ℚ → α) (p0 : Port)
    (ports1 ports2 : List Port) (separation ssl esl eso sso : ℚ) :
    Except RErr (DirectOut α) :=
  let axis := directAxis ports1
  let dOpt : Option ℚ :=
    match axis with
    | .X =>
      if p0.orientationDeg = 0 then some (longOffset ports1 ports2)
      else if p0.orientationDeg = 180 then some (longOffset ports1 ports2)
      else none
    | .Y =>
      if p0.orientationDeg = 90 then some (longOffset ports1 ports2)
      else if p0.orientationDeg = 270 then some (longOffset ports1 ports2)
      else none
  match dOpt with
  | none => .error .nameError
  | some d =>
    let s := ssl + sso
    let e := max esl d + eso
    let zips := directZipA ports1 ports2
    .ok ⟨routeLoop f zips.1 s e separation ++
         routeLoop f zips.2 s e separation,
         sortByQ (fun p => perpKey axis p) ports2⟩

/-- Embedding of `_get_bundle_udirect_waypoints`.

The single-pair waypoint router (`routing_func`, a collaborator outside this
module) is the parameter `f`.  The source writes the `axis == "X"` and
`axis == "Y"` branches out separately with identical structure (only the
coordinate, the sort keys and the `dx`/`dy` formula change); here they are
merged through `directZipA`/`perpKey` inside `udirectCore`.
`ports2.sort(key=...)` in the source sorts the caller's list in place: the
sorted list is returned as `ports2After`.  Note the orientation check is over
`ports1 + ports2` combined, and the error branches mirror the source:
nonequal lengths raise, more than one distinct orientation in the union
raises, and empty inputs hit Python's `min()` on an empty sequence. -/
def udirectWaypoints {α : Type} (f : Port → Port → ℚ → ℚ → α)
    (ports1 ports2 : List Port) (separation ssl esl eso sso : ℚ) :
    Except RErr (DirectOut α) :=
  if ports2.length ≠ ports1.length then .error .countMismatch
  else if 1 < ((ports1 ++ ports2).map Port.orientationDeg).dedup.length then
    .error .mixedOrientations
  else
    match ports1, ports2 with
    | p0 :: _, _q0 :: _ =>
      udirectCore f p0 ports1 ports2 separation ssl esl eso sso
    | _, _ => .error .emptySequence

/-- Embedding of the waypoint-level behaviour of the public entry point
`get_bundle_udirect`: it forwards its own `end_straight_length` argument as
`end_straight_offset` of `_get_bundle_udirect_waypoints`, leaving the inner
`end_straight_length` at its default `0.01` (and `start_straight_offset` at
its default `0`). -/
def getBundleUdirectCalls (ports1 ports2 : List Port)
    (separation ssl endStraightLen : ℚ) : Except RErr (DirectOut Call) :=
  udirectWaypoints Call.mk ports1 ports2 separation ssl (1/100) endStraightLen 0

/-- A path fragment: one portion of a route (a numpy waypoint array in the
source). -/
abbrev Frag := List Pt

/-- The match test of `add_connections`: `np.abs(p - q).sum() < 1e-9`. -/
def closePts (p q : Pt) : Bool :=
  decide (|p.x - q.x| + |p.y - q.y| < 1 / 1000000000)

/-- `v[-1][-1]`: the last point of a route's last fragment.  The call sites
keep every route's fragment list nonempty, so the default is never used. -/
def lastPt (frags : List Frag) : Pt :=
  (frags.getLastD []).getLastD ⟨0, 0⟩

/-- Embedding of the inner function `add_connections` of
`_get_bundle_uindirect_waypoints`.  `dict` is `dict_connections` (keys
`0..n-1` in order).  The endpoints of the open routes (`end_prev_conns`) are
computed ONCE, before any fragment of the batch is appended.  Each fragment is
appended to the first open route whose recorded endpoint is within tolerance
of the fragment's first point; a fragment matching no open route is skipped
with no effect and no error (the source's inner `for` loop simply finds no
`break`). -/
def addConnections (dict : List (List Frag)) (conns : List Frag) :
    List (List Frag) :=
  let endPrev := dict.map lastPt
  conns.foldl (fun d c =>
    match endPrev.findIdx? (fun q => closePts (c.headD ⟨0, 0⟩) q) with
    | some i => d.set i (d.getD i [] ++ [c])
    | none => d) dict

/-- Modelled from the spec: `remove_identicals` (`gdsfactory.functions`) is not
under `src/`; per §4.5 it removes exact-duplicate consecutive points. -/
def removeIdenticals : List Pt → List Pt
  | a :: b :: rest =>
    if a = b then removeIdenticals (b :: rest)
    else a :: removeIdenticals (b :: rest)
  | l => l

/-- Vector difference of two points. -/
def sub (p q : Pt) : Pt := ⟨p.x - q.x, p.y - q.y⟩

/-- 2D cross product of direction vectors. -/
def cross (u v : Pt) : ℚ := u.x * v.y - u.y * v.x

/-- Dot product of direction vectors. -/
def dot (u v : Pt) : ℚ := u.x * v.x + u.y * v.y

/-- Two direction vectors point the same way: collinear (zero cross product)
with positive dot product. -/
def sameDir (u v : Pt) : Bool := decide (cross u v = 0 ∧ 0 < dot u v)

/-- The interior point `b` of the triple is a "flat angle": the incoming
segment direction `b - a` and the outgoing one `c - b` are collinear with the
turn angle at `b` equal to 180° (straight through). -/
def isFlat (a b c : Pt) : Bool := sameDir (sub b a) (sub c b)

/-- Modelled from the spec: `remove_flat_angles`
(`gdsfactory.routing.manhattan`) is not under `src/`; per §4.5 it removes any
interior point whose incoming and outgoing segment directions are collinear
(turn angle ≈ 180°, a "flat angle"); endpoints are never removed. -/
def removeFlatAngles : List Pt → List Pt
  | a :: b :: c :: rest =>
    if isFlat a b c then removeFlatAngles (a :: c :: rest)
    else a :: removeFlatAngles (b :: c :: rest)
  | l => l
termination_by l => l.length
decreasing_by
  · simp
  · simp

/-- Embedding of the inner function `_merge_connections`: concatenate the
route's fragments, dropping the first point of every fragment after the first
(`point[1:]`), then `remove_identicals`, then `remove_flat_angles`.  The
source indexes `list_of_points[0]`, so it is only ever called on a nonempty
fragment list; the `[]` case is unreachable at the call sites. -/
def mergeConnections (frags : List Frag) : List Pt :=
  match frags with
  | [] => []
  | f :: rest =>
    removeFlatAngles (removeIdenticals (f ++ (rest.map (fun c => c.drop 1)).flatten))

/-- A side-routing direction (the `"north"`/`"south"`/`"east"`/`"west"`
strings of the route directives). -/
inductive Dir
  | north
  | south
  | east
  | west
deriving DecidableEq, Repr

/-- The orientation (degrees) of ports extended toward a direction. -/
def dirAngle : Dir → ℚ
  | .north => 90
  | .south => 270
  | .east => 0
  | .west => 180

/-- Result of the side router `route_ports_to_side` (a collaborator outside
this module): partial path fragments plus the group's new frontier ports. -/
structure SideResult where
  frags : List Frag
  newPorts : List Port

/-- The side-routing plan table of `_get_bundle_uindirect_waypoints`: the two
route-directive pairs for the two groups, selected by the (start, end)
orientation pair; `none` when the configuration is not one of the four
supported plans (where the source merely prints a warning and leaves the
directive variables unassigned). -/
def uindirectPlan (axis : Axis) (p0 q0 : Port) :
    Option ((Dir × Dir) × (Dir × Dir)) :=
  match axis with
  | .X =>
    if p0.orientationDeg = 0 ∧ q0.orientationDeg = 180 then
      some ((.north, .west), (.south, .west))
    else if p0.orientationDeg = 180 ∧ q0.orientationDeg = 0 then
      some ((.north, .east), (.south, .east))
    else none
  | .Y =>
    if p0.orientationDeg = 90 ∧ q0.orientationDeg = 270 then
      some ((.east, .south), (.west, .south))
    else if p0.orientationDeg = 270 ∧ q0.orientationDeg = 90 then
      some ((.east, .north), (.west, .north))
    else none

/-- The tail of `_get_bundle_uindirect_waypoints` (lines 543-571): the local
copy of `ports2` has been sorted by `p.y` into `ports2s`, the stage-2 frontier
ports are `t1`/`t2`; route whichever frontier groups are nonempty through the
nested `_get_bundle_udirect_waypoints` against the prefix/suffix partition of
`ports2s`, stitch the resulting fragments into `dict1`, and merge each route;
when both frontiers are empty the source raises
`ValueError("No connections generated!")`. -/
def uindirectFinish (routeFn : Port → Port → ℚ → ℚ → Frag)
    (dict1 : List (List Frag)) (t1 t2 ports2s : List Port)
    (separation ssl esl : ℚ) :
    List String × Except RErr (List (List Pt)) :=
  match t1, t2 with
  | [], [] => ([], .error .noConnections)
  | [], _ :: _ =>
    match udirectWaypoints routeFn t2 (ports2s.drop t1.length)
        separation ssl esl 0 0 with
    | .error err => ([], .error err)
    | .ok r2 =>
      ([], .ok ((addConnections dict1 r2.conns).map mergeConnections))
  | _ :: _, _ =>
    match udirectWaypoints routeFn t1 (ports2s.take t1.length)
        separation ssl esl 0 0 with
    | .error err => ([], .error err)
    | .ok r1 =>
      match t2 with
      | [] =>
        ([], .ok ((addConnections dict1 r1.conns).map mergeConnections))
      | _ :: _ =>
        match udirectWaypoints routeFn t2 (ports2s.drop t1.length)
            separation ssl esl 0 0 with
        | .error err => ([], .error err)
        | .ok r2 =>
          ([], .ok ((addConnections dict1
              (r1.conns ++ r2.conns)).map mergeConnections))

/-- The two staged side-routing passes of `_get_bundle_uindirect_waypoints`
(lines 508-541) followed by the finish: extend each group toward its plan's
first directive (passing `extension_length`), seed one route per stage-1
fragment, extend the frontier toward the second directive (the source passes
no `extension_length` here, so the collaborator default `0` applies), stitch
the stage-2 fragments by endpoint proximity, then delegate to
`uindirectFinish`. -/
def uindirectStages (sideRouter : List Port → Dir → ℚ → SideResult)
    (routeFn : Port → Port → ℚ → ℚ → Frag)
    (gp : List Port × List Port) (plan : (Dir × Dir) × (Dir × Dir))
    (ports2 : List Port) (separation extensionLength ssl esl : ℚ) :
    List String × Except RErr (List (List Pt)) :=
  let s1 := sideRouter gp.1 plan.1.1 extensionLength
  let s2 := sideRouter gp.2 plan.2.1 extensionLength
  let dict0 := (s1.frags ++ s2.frags).map (fun c => [c])
  let s1b := sideRouter s1.newPorts plan.1.2 0
  let s2b := sideRouter s2.newPorts plan.2.2 0
  let dict1 := addConnections dict0 (s1b.frags ++ s2b.frags)
  let ports2s := sortByQ (fun p => p.y) ports2
  uindirectFinish routeFn dict1 s1b.newPorts s2b.newPorts ports2s
    separation ssl esl

/-- Embedding of `_get_bundle_uindirect_waypoints`.

`sideRouter` is the collaborator `route_ports_to_side` (ports, direction,
extension length); `routeFn` is the single-pair waypoint router threaded to
the nested direct calls.  The first component of the result collects `print`
output.

The source copies `ports1`/`ports2` at entry, so the caller's lists are not
mutated here (the nested `_get_bundle_udirect_waypoints` calls receive fresh
slices of the local copy).  The group split is the same comprehension pair as
`_groups` (see `splitGroups`).  For a start/end orientation pair that is none
of the four supported plans the source only `print`s a warning; the directive
lists are then left unassigned, and the first `route_ports_to_side` call
raises `UnboundLocalError` (embedded as `.error .nameError`) — no
`UnsupportedConfiguration`-style error is ever raised.  The local copy of
`ports2` is sorted by `p.y` regardless of the axis, as in the source. -/
def uindirectWaypoints (sideRouter : List Port → Dir → ℚ → SideResult)
    (routeFn : Port → Port → ℚ → ℚ → Frag)
    (ports1 ports2 : List Port) (separation extensionLength ssl esl : ℚ) :
    List String × Except RErr (List (List Pt)) :=
  if ports2.length ≠ ports1.length then ([], .error .countMismatch)
  else if 1 < (ports1.map Port.orientationDeg).dedup.length then
    ([], .error .mixedOrientations)
  else if 1 < (ports2.map Port.orientationDeg).dedup.length then
    ([], .error .mixedOrientations)
  else
    match ports1, ports2 with
    | p0 :: _, q0 :: _ =>
      match uindirectPlan (directAxis ports1) p0 q0 with
      | none =>
        (["u_undirect_bundle not designed to work in this case"],
         .error .nameError)
      | some plan =>
        uindirectStages sideRouter routeFn (splitGroups ports1 ports2) plan
          ports2 separation extensionLength ssl esl
    | _, _ => ([], .error .indexError)

/-! ### Derived descriptions of the direct router, used by the theorems -/

/-- The first zip of matched pairs (group 1, descending, against the sorted
prefix of `ports2`). -/
def directZip1 (ports1 ports2 : List Port) : List (Port × Port) :=
  (directZipA ports1 ports2).1

/-- The second zip of matched pairs (group 2, ascending, against the
descending-sorted suffix of `ports2`). -/
def directZip2 (ports1 ports2 : List Port) : List (Port × Port) :=
  (directZipA ports1 ports2).2

/-- All matched pairs of the direct router, in the order the connections are
produced: group 1 first, then group 2. -/
def directPairing (ports1 ports2 : List Port) : List (Port × Port) :=
  directZip1 ports1 ports2 ++ directZip2 ports1 ports2

/-- The state of the caller's `ports2` list after the direct router's
in-place sort. -/
def directPorts2After (ports1 ports2 : List Port) : List Port :=
  sortByQ (fun p => perpKey (directAxis ports1) p) ports2

/-- The base start straight length of the first pair of each group. -/
def directBaseStart (ssl sso : ℚ) : ℚ := ssl + sso

/-- The base end straight length of the first pair of each group:
`max(end_straight_length, dx) + end_straight_offset`. -/
def directBaseEnd (esl eso : ℚ) (ports1 ports2 : List Port) : ℚ :=
  max esl (longOffset ports1 ports2) + eso

/-! ### Lemmas about the direct router -/

theorem dedup_length_le_one (l : List ℚ) (c : ℚ) (h : ∀ o ∈ l, o = c) :
    l.dedup.length ≤ 1 := by
  induction l with
  | nil => simp
  | cons a t ih =>
    by_cases hm : a ∈ t
    · rw [List.dedup_cons_of_mem hm]
      exact ih fun o ho => h o (List.mem_cons_of_mem a ho)
    · have ht : t = [] := by
        cases t with
        | nil => rfl
        | cons b u =>
          exfalso
          apply hm
          have hb : b = c := h b (by simp)
          have ha : a = c := h a (by simp)
          rw [ha, ← hb]
          exact List.mem_cons_self b u
      subst ht
      simp

/-- Evaluating the post-validation core on a supported orientation. -/
theorem udirectCore_eq {α : Type} (f : Port → Port → ℚ → ℚ → α) (p0 : Port)
    (r1 ports2 : List Port) (separation ssl esl eso sso c : ℚ)
    (hp0 : p0.orientationDeg = c)
    (hc : c = 0 ∨ c = 90 ∨ c = 180 ∨ c = 270) :
    udirectCore f p0 (p0 :: r1) ports2 separation ssl esl eso sso =
      .ok ⟨routeLoop f (directZip1 (p0 :: r1) ports2) (directBaseStart ssl sso)
             (directBaseEnd esl eso (p0 :: r1) ports2) separation ++
           routeLoop f (directZip2 (p0 :: r1) ports2) (directBaseStart ssl sso)
             (directBaseEnd esl eso (p0 :: r1) ports2) separation,
           directPorts2After (p0 :: r1) ports2⟩ := by
  rcases hc with h | h | h | h <;> subst h <;>
    simp [udirectCore, directAxis, hp0, directZip1, directZip2,
      directPorts2After, directBaseStart, directBaseEnd]

/-- Master evaluation lemma: on valid input (matching lengths, nonempty,
one shared orientation among the four supported ones) the direct router
succeeds, producing the group-ordered pairs routed with incrementing straight
lengths, and leaving the caller's `ports2` perpendicular-sorted. -/
theorem udirect_ok {α : Type} (f : Port → Port → ℚ → ℚ → α)
    (ports1 ports2 : List Port) (separation ssl esl eso sso c : ℚ)
    (hlen : ports2.length = ports1.length) (hne : ports1 ≠ [])
    (h1 : ∀ p ∈ ports1, p.orientationDeg = c)
    (h2 : ∀ p ∈ ports2, p.orientationDeg = c)
    (hc : c = 0 ∨ c = 90 ∨ c = 180 ∨ c = 270) :
    udirectWaypoints f ports1 ports2 separation ssl esl eso sso =
      .ok ⟨routeLoop f (directZip1 ports1 ports2) (directBaseStart ssl sso)
             (directBaseEnd esl eso ports1 ports2) separation ++
           routeLoop f (directZip2 ports1 ports2) (directBaseStart ssl sso)
             (directBaseEnd esl eso ports1 ports2) separation,
           directPorts2After ports1 ports2⟩ := by
  obtain ⟨p0, r1, rfl⟩ := List.exists_cons_of_ne_nil hne
  have hne2 : ports2 ≠ [] := by
    intro h
    subst h
    simp at hlen
  obtain ⟨q0, r2, rfl⟩ := List.exists_cons_of_ne_nil hne2
  have hd : ¬ 1 < (((p0 :: r1) ++ q0 :: r2).map Port.orientationDeg).dedup.length := by
    have hle : (((p0 :: r1) ++ q0 :: r2).map Port.orientationDeg).dedup.length ≤ 1 := by
      apply dedup_length_le_one _ c
      intro o ho
      simp only [List.mem_map, List.mem_append] at ho
      obtain ⟨p, hp, rfl⟩ := ho
      cases hp with
      | inl hmem => exact h1 p hmem
      | inr hmem => exact h2 p hmem
    omega
  have hp0 : p0.orientationDeg = c := h1 p0 (List.mem_cons_self p0 r1)
  simp only [udirectWaypoints]
  rw [if_neg (not_not_intro hlen), if_neg hd]
  exact udirectCore_eq f p0 r1 (q0 :: r2) separation ssl esl eso sso c hp0 hc

/-- `routeLoop` produces one connection per matched pair. -/
theorem routeLoop_length {α : Type} (f : Port → Port → ℚ → ℚ → α)
    (pairs : List (Port × Port)) (s e sep : ℚ) :
    (routeLoop f pairs s e sep).length = pairs.length := by
  induction pairs generalizing s e with
  | nil => rfl
  | cons pq rest ih => simp [routeLoop, ih]

/-- `routeLoop` with the pair-recording router returns exactly the matched
pairs. -/
theorem routeLoop_pairs (pairs : List (Port × Port)) (s e sep : ℚ) :
    routeLoop (fun p q _ _ => (p, q)) pairs s e sep = pairs := by
  induction pairs generalizing s e with
  | nil => rfl
  | cons pq rest ih => simp [routeLoop, ih]

/-- The `k`-th call of `routeLoop` (0-based) uses straight lengths
`s + k * sep` and `e + k * sep` on its two ends. -/
theorem routeLoop_call (pairs : List (Port × Port)) (s e sep : ℚ) (k : ℕ)
    (hk : k < (routeLoop Call.mk pairs s e sep).length)
    (hk2 : k < pairs.length) :
    (routeLoop Call.mk pairs s e sep).get ⟨k, hk⟩ =
      Call.mk (pairs.get ⟨k, hk2⟩).1 (pairs.get ⟨k, hk2⟩).2
        (s + k * sep) (e + k * sep) := by
  induction pairs generalizing s e k with
  | nil => exact absurd hk2 (by simp)
  | cons pq rest ih =>
    cases k with
    | zero => simp [routeLoop]
    | succ n =>
      have hn : n < rest.length := by simpa using hk2
      have hn1 : n < (routeLoop Call.mk rest (s + sep) (e + sep) sep).length := by
        rw [routeLoop_length]
        exact hn
      have := ih (s + sep) (e + sep) n hn1 hn
      simp only [routeLoop, List.get_cons_succ]
      rw [this]
      congr 1 <;> push_cast <;> ring

/-- The two groups partition the port list. -/
theorem groups_length (ports : List Port) (cut : ℚ) (axis : Axis) :
    (groups ports cut axis).1.length + (groups ports cut axis).2.length
      = ports.length := by
  have key : ∀ g : Port → ℚ,
      (ports.filter (fun p => decide (g p ≤ cut))).length +
        (ports.filter (fun p => decide (¬ g p ≤ cut))).length = ports.length := by
    intro g
    have h := List.length_eq_length_filter_add (l := ports)
      (fun p => decide (g p ≤ cut))
    simp only [decide_not] at h ⊢
    omega
  cases axis with
  | X => exact key (fun p => p.y)
  | Y => exact key (fun p => p.x)

theorem sortByQ_length (key : Port → ℚ) (l : List Port) :
    (sortByQ key l).length = l.length :=
  (List.perm_insertionSort _ l).length_eq

theorem sortByQ_mem (key : Port → ℚ) (l : List Port) (p : Port) :
    p ∈ sortByQ key l ↔ p ∈ l :=
  (List.perm_insertionSort _ l).mem_iff

/-- The two zips together hold one pair per start port. -/
theorem directZip_lengths (ports1 ports2 : List Port)
    (hlen : ports2.length = ports1.length) :
    (directZip1 ports1 ports2).length + (directZip2 ports1 ports2).length
      = ports1.length := by
  have hg := groups_length ports1 (midCut (directAxis ports1) ports2)
    (directAxis ports1)
  simp only [directZip1, directZip2, directZipA, splitGroups, List.length_zip,
    sortByQ_length, List.length_take, List.length_drop]
  omega

/-- One matched pair per start port. -/
theorem directPairing_length (ports1 ports2 : List Port)
    (hlen : ports2.length = ports1.length) :
    (directPairing ports1 ports2).length = ports1.length := by
  simp only [directPairing, List.length_append]
  exact directZip_lengths ports1 ports2 hlen

/-- Membership in the two groups: perpendicular coordinate at most the cut
(ties included) goes to the first group, the rest to the second. -/
theorem groups_mem_iff (ports : List Port) (cut : ℚ) (axis : Axis) (p : Port) :
    (p ∈ (groups ports cut axis).1 ↔ p ∈ ports ∧ perpKey axis p ≤ cut) ∧
    (p ∈ (groups ports cut axis).2 ↔ p ∈ ports ∧ ¬ perpKey axis p ≤ cut) := by
  cases axis <;> simp [groups, perpKey, List.mem_filter]

/-! ### Lemmas about the indirect router -/

theorem addConnections_length (dict : List (List Frag)) (conns : List Frag) :
    (addConnections dict conns).length = dict.length := by
  simp only [addConnections]
  generalize dict.map lastPt = endPrev
  induction conns generalizing dict with
  | nil => rfl
  | cons c rest ih =>
    rw [List.foldl_cons, ih]
    cases endPrev.findIdx? (fun q => closePts (c.headD ⟨0, 0⟩) q) with
    | none => rfl
    | some i => simp

/-- The rebuilt fragment dictionary has one route per stage-1 fragment, and
the later `add_connections` passes never change the route count. -/
theorem uindirectFinish_ok (routeFn : Port → Port → ℚ → ℚ → Frag)
    (dict1 : List (List Frag)) (t1 t2 ports2s : List Port)
    (separation ssl esl c2 : ℚ)
    (hlen : ports2s.length = t1.length + t2.length)
    (hne : t1 ≠ [] ∨ t2 ≠ [])
    (ht1 : ∀ p ∈ t1, p.orientationDeg = c2)
    (ht2 : ∀ p ∈ t2, p.orientationDeg = c2)
    (hp2 : ∀ p ∈ ports2s, p.orientationDeg = c2)
    (hc : c2 = 0 ∨ c2 = 90 ∨ c2 = 180 ∨ c2 = 270) :
    ∃ r, uindirectFinish routeFn dict1 t1 t2 ports2s separation ssl esl
        = ([], .ok r) ∧ r.length = dict1.length := by
  match ht1m : t1, ht2m : t2 with
  | [], [] => simp [ht1m, ht2m] at hne
  | [], b :: t2' =>
    have hok := udirect_ok routeFn (b :: t2') (ports2s.drop 0)
      separation ssl esl 0 0 c2
      (by subst ht1m ht2m; simpa using hlen)
      (by simp)
      (by subst ht2m; exact ht2)
      (fun p hp => hp2 p (List.mem_of_mem_drop hp))
      hc
    simp only [uindirectFinish, List.length_nil, hok]
    refine ⟨_, rfl, ?_⟩
    simp [addConnections_length]
  | a :: t1', t2v =>
    have hok1 := udirect_ok routeFn (a :: t1') (ports2s.take (a :: t1').length)
      separation ssl esl 0 0 c2
      (by
        rw [List.length_take]
        subst ht1m
        omega)
      (by simp)
      (by subst ht1m; exact ht1)
      (fun p hp => hp2 p (List.mem_of_mem_take hp))
      hc
    match ht2m2 : t2v with
    | [] =>
      simp only [uindirectFinish, hok1]
      refine ⟨_, rfl, ?_⟩
      simp [addConnections_length]
    | b :: t2' =>
      have hok2 := udirect_ok routeFn (b :: t2')
        (ports2s.drop (a :: t1').length) separation ssl esl 0 0 c2
        (by
          rw [List.length_drop]
          subst ht1m ht2m
          simp at hlen ⊢
          omega)
        (by simp)
        (by subst ht2m ht2m2; exact ht2)
        (fun p hp => hp2 p (List.mem_of_mem_drop hp))
        hc
      simp only [uindirectFinish, hok1, hok2]
      refine ⟨_, rfl, ?_⟩
      simp [addConnections_length]

/-- The side-router contract (spec §6, `SideRouter`): one fragment and one
frontier port per input port, frontier ports re-oriented toward the requested
direction. -/
def SideContract (sideRouter : List Port → Dir → ℚ → SideResult) : Prop :=
  ∀ g d e, (sideRouter g d e).frags.length = g.length ∧
    (sideRouter g d e).newPorts.length = g.length ∧
    ∀ p ∈ (sideRouter g d e).newPorts, p.orientationDeg = dirAngle d

theorem splitGroups_length (ports1 ports2 : List Port) :
    (splitGroups ports1 ports2).1.length + (splitGroups ports1 ports2).2.length
      = ports1.length :=
  groups_length ports1 (midCut (directAxis ports1) ports2) (directAxis ports1)

/-- Under the side-router contract and a supported plan, the staged side
routing succeeds and yields one route per start port. -/
theorem uindirectStages_ok (sideRouter : List Port → Dir → ℚ → SideResult)
    (routeFn : Port → Port → ℚ → ℚ → Frag) (gp : List Port × List Port)
    (plan : (Dir × Dir) × (Dir × Dir)) (ports2 : List Port)
    (separation extensionLength ssl esl c2 : ℚ)
    (hS : SideContract sideRouter)
    (hlen : ports2.length = gp.1.length + gp.2.length)
    (hpos : gp.1.length + gp.2.length ≠ 0)
    (hd1 : dirAngle plan.1.2 = c2) (hd2 : dirAngle plan.2.2 = c2)
    (hp2 : ∀ p ∈ ports2, p.orientationDeg = c2)
    (hc : c2 = 0 ∨ c2 = 90 ∨ c2 = 180 ∨ c2 = 270) :
    ∃ r, uindirectStages sideRouter routeFn gp plan ports2 separation
        extensionLength ssl esl = ([], .ok r) ∧
      r.length = gp.1.length + gp.2.length := by
  simp only [uindirectStages]
  set s1 := sideRouter gp.1 plan.1.1 extensionLength with hs1
  set s2 := sideRouter gp.2 plan.2.1 extensionLength with hs2
  set s1b := sideRouter s1.newPorts plan.1.2 0 with hs1b
  set s2b := sideRouter s2.newPorts plan.2.2 0 with hs2b
  have hl1 : s1b.newPorts.length = gp.1.length := by
    rw [(hS s1.newPorts plan.1.2 0).2.1, (hS gp.1 plan.1.1 extensionLength).2.1]
  have hl2 : s2b.newPorts.length = gp.2.length := by
    rw [(hS s2.newPorts plan.2.2 0).2.1, (hS gp.2 plan.2.1 extensionLength).2.1]
  have hf1 : s1.frags.length = gp.1.length :=
    (hS gp.1 plan.1.1 extensionLength).1
  have hf2 : s2.frags.length = gp.2.length :=
    (hS gp.2 plan.2.1 extensionLength).1
  obtain ⟨r, hr, hrl⟩ := uindirectFinish_ok routeFn
    (addConnections ((s1.frags ++ s2.frags).map (fun c => [c]))
      (s1b.frags ++ s2b.frags))
    s1b.newPorts s2b.newPorts (sortByQ (fun p => p.y) ports2)
    separation ssl esl c2
    (by rw [sortByQ_length, hl1, hl2]; exact hlen)
    (by
      rcases Nat.eq_zero_or_pos gp.1.length with h0 | h0
      · right
        apply List.ne_nil_of_length_pos
        omega
      · left
        apply List.ne_nil_of_length_pos
        omega)
    (fun p hp => (hS s1.newPorts plan.1.2 0).2.2 p hp |>.trans hd1)
    (fun p hp => (hS s2.newPorts plan.2.2 0).2.2 p hp |>.trans hd2)
    (fun p hp => hp2 p ((sortByQ_mem _ _ _).mp hp))
    hc
  refine ⟨r, hr, ?_⟩
  rw [hrl, addConnections_length, List.length_map, List.length_append,
    hf1, hf2]

/-- Master evaluation lemma for the indirect router: on valid input with one
of the four supported orientation plans, and a side router meeting its
contract, the router succeeds with no printed warning and returns exactly one
waypath per start port. -/
theorem uindirect_ok (sideRouter : List Port → Dir → ℚ → SideResult)
    (routeFn : Port → Port → ℚ → ℚ → Frag) (ports1 ports2 : List Port)
    (separation extensionLength ssl esl c1 c2 : ℚ)
    (hS : SideContract sideRouter)
    (hlen : ports2.length = ports1.length) (hne : ports1 ≠ [])
    (h1 : ∀ p ∈ ports1, p.orientationDeg = c1)
    (h2 : ∀ p ∈ ports2, p.orientationDeg = c2)
    (hplan : (c1 = 0 ∧ c2 = 180) ∨ (c1 = 180 ∧ c2 = 0) ∨
      (c1 = 90 ∧ c2 = 270) ∨ (c1 = 270 ∧ c2 = 90)) :
    ∃ r, uindirectWaypoints sideRouter routeFn ports1 ports2 separation
        extensionLength ssl esl = ([], .ok r) ∧
      r.length = ports1.length := by
  obtain ⟨p0, r1, rfl⟩ := List.exists_cons_of_ne_nil hne
  have hne2 : ports2 ≠ [] := by
    intro h
    subst h
    simp at hlen
  obtain ⟨q0, r2, rfl⟩ := List.exists_cons_of_ne_nil hne2
  have hdd1 : ¬ 1 < ((p0 :: r1).map Port.orientationDeg).dedup.length := by
    have := dedup_length_le_one ((p0 :: r1).map Port.orientationDeg) c1 (by
      intro o ho
      simp only [List.mem_map] at ho
      obtain ⟨p, hp, rfl⟩ := ho
      exact h1 p hp)
    omega
  have hdd2 : ¬ 1 < ((q0 :: r2).map Port.orientationDeg).dedup.length := by
    have := dedup_length_le_one ((q0 :: r2).map Port.orientationDeg) c2 (by
      intro o ho
      simp only [List.mem_map] at ho
      obtain ⟨p, hp, rfl⟩ := ho
      exact h2 p hp)
    omega
  have hp0 : p0.orientationDeg = c1 := h1 p0 (List.mem_cons_self p0 r1)
  have hq0 : q0.orientationDeg = c2 := h2 q0 (List.mem_cons_self q0 r2)
  have hsum : (q0 :: r2).length =
      (splitGroups (p0 :: r1) (q0 :: r2)).1.length +
      (splitGroups (p0 :: r1) (q0 :: r2)).2.length := by
    rw [splitGroups_length]
    exact hlen
  have hpos : (splitGroups (p0 :: r1) (q0 :: r2)).1.length +
      (splitGroups (p0 :: r1) (q0 :: r2)).2.length ≠ 0 := by
    rw [splitGroups_length]
    simp
  simp only [uindirectWaypoints]
  rw [if_neg (not_not_intro hlen), if_neg hdd1, if_neg hdd2]
  rcases hplan with ⟨hc1, hc2⟩ | ⟨hc1, hc2⟩ | ⟨hc1, hc2⟩ | ⟨hc1, hc2⟩ <;>
    subst hc1 <;> subst hc2
  · have hplanEq : uindirectPlan (directAxis (p0 :: r1)) p0 q0 =
        some ((.north, .west), (.south, .west)) := by
      simp [uindirectPlan, directAxis, hp0, hq0]
    simp only [hplanEq]
    obtain ⟨r, hr, hrl⟩ := uindirectStages_ok sideRouter routeFn
      (splitGroups (p0 :: r1) (q0 :: r2)) ((.north, .west), (.south, .west))
      (q0 :: r2) separation extensionLength ssl esl 180
      hS hsum hpos rfl rfl h2 (by norm_num)
    refine ⟨r, hr, ?_⟩
    rw [hrl, splitGroups_length]
  · have hplanEq : uindirectPlan (directAxis (p0 :: r1)) p0 q0 =
        some ((.north, .east), (.south, .east)) := by
      simp [uindirectPlan, directAxis, hp0, hq0]
    simp only [hplanEq]
    obtain ⟨r, hr, hrl⟩ := uindirectStages_ok sideRouter routeFn
      (splitGroups (p0 :: r1) (q0 :: r2)) ((.north, .east), (.south, .east))
      (q0 :: r2) separation extensionLength ssl esl 0
      hS hsum hpos rfl rfl h2 (by norm_num)
    refine ⟨r, hr, ?_⟩
    rw [hrl, splitGroups_length]
  · have hplanEq : uindirectPlan (directAxis (p0 :: r1)) p0 q0 =
        some ((.east, .south), (.west, .south)) := by
      simp [uindirectPlan, directAxis, hp0, hq0]
    simp only [hplanEq]
    obtain ⟨r, hr, hrl⟩ := uindirectStages_ok sideRouter routeFn
      (splitGroups (p0 :: r1) (q0 :: r2)) ((.east, .south), (.west, .south))
      (q0 :: r2) separation extensionLength ssl esl 270
      hS hsum hpos rfl rfl h2 (by norm_num)
    refine ⟨r, hr, ?_⟩
    rw [hrl, splitGroups_length]
  · have hplanEq : uindirectPlan (directAxis (p0 :: r1)) p0 q0 =
        some ((.east, .north), (.west, .north)) := by
      simp [uindirectPlan, directAxis, hp0, hq0]
    simp only [hplanEq]
    obtain ⟨r, hr, hrl⟩ := uindirectStages_ok sideRouter routeFn
      (splitGroups (p0 :: r1) (q0 :: r2)) ((.east, .north), (.west, .north))
      (q0 :: r2) separation extensionLength ssl esl 90
      hS hsum hpos rfl rfl h2 (by norm_num)
    refine ⟨r, hr, ?_⟩
    rw [hrl, splitGroups_length]

/-- On valid input the first routed pair (whichever group it comes from) is
called with exactly the base straight lengths. -/
theorem direct_first_call (ports1 ports2 : List Port)
    (separation ssl esl eso sso c : ℚ)
    (hlen : ports2.length = ports1.length) (hne : ports1 ≠ [])
    (h1 : ∀ p ∈ ports1, p.orientationDeg = c)
    (h2 : ∀ p ∈ ports2, p.orientationDeg = c)
    (hc : c = 0 ∨ c = 90 ∨ c = 180 ∨ c = 270) :
    ∃ (pr : Port × Port) (rest : List Call),
      udirectWaypoints Call.mk ports1 ports2 separation ssl esl eso sso =
        .ok ⟨Call.mk pr.1 pr.2 (directBaseStart ssl sso)
              (directBaseEnd esl eso ports1 ports2) :: rest,
             directPorts2After ports1 ports2⟩ := by
  have h := udirect_ok Call.mk ports1 ports2 separation ssl esl eso sso c
    hlen hne h1 h2 hc
  cases hz : directZip1 ports1 ports2 with
  | cons pq z1rest =>
    refine ⟨pq, routeLoop Call.mk z1rest
      (directBaseStart ssl sso + separation)
      (directBaseEnd esl eso ports1 ports2 + separation) separation ++
      routeLoop Call.mk (directZip2 ports1 ports2) (directBaseStart ssl sso)
        (directBaseEnd esl eso ports1 ports2) separation, ?_⟩
    rw [h, hz]
    rfl
  | nil =>
    have hlens := directZip_lengths ports1 ports2 hlen
    cases hz2 : directZip2 ports1 ports2 with
    | nil =>
      exfalso
      rw [hz, hz2] at hlens
      simp at hlens
      exact hne (List.length_eq_zero.mp hlens.symm)
    | cons pq z2rest =>
      refine ⟨pq, routeLoop Call.mk z2rest
        (directBaseStart ssl sso + separation)
        (directBaseEnd esl eso ports1 ports2 + separation) separation, ?_⟩
      rw [h, hz, hz2]
      rfl

/-! ### Lemmas about the connection assembler -/

/-- No two consecutive points are equal. -/
def noDupAdj : List Pt → Bool
  | a :: b :: rest => a ≠ b && noDupAdj (b :: rest)
  | _ => true

/-- No interior point forms a flat angle. -/
def noFlat : List Pt → Bool
  | a :: b :: c :: rest => !isFlat a b c && noFlat (b :: c :: rest)
  | _ => true

theorem sameDir_iff {u v : Pt} :
    sameDir u v = true ↔ cross u v = 0 ∧ 0 < dot u v := by
  simp [sameDir]

theorem sameDir_symm {u v : Pt} (h : sameDir u v = true) :
    sameDir v u = true := by
  rw [sameDir_iff] at h ⊢
  obtain ⟨hc, hd⟩ := h
  simp only [cross, dot] at *
  constructor
  · linarith
  · linarith

theorem sameDir_trans {u v w : Pt} (huv : sameDir u v = true)
    (hvw : sameDir v w = true) : sameDir u w = true := by
  rw [sameDir_iff] at huv hvw ⊢
  obtain ⟨hc1, hd1⟩ := huv
  obtain ⟨hc2, hd2⟩ := hvw
  simp only [cross, dot] at *
  have hvv : 0 < v.x * v.x + v.y * v.y := by
    rcases lt_trichotomy (v.x * v.x + v.y * v.y) 0 with h | h | h
    · nlinarith [mul_self_nonneg v.x, mul_self_nonneg v.y]
    · have hx : v.x * v.x = 0 := by
        nlinarith [mul_self_nonneg v.x, mul_self_nonneg v.y]
      have hy : v.y * v.y = 0 := by
        nlinarith [mul_self_nonneg v.x, mul_self_nonneg v.y]
      rw [mul_self_eq_zero.mp hx, mul_self_eq_zero.mp hy] at hd1
      nlinarith
    · exact h
  constructor
  · have key : (u.x * w.y - u.y * w.x) * (v.x * v.x + v.y * v.y) = 0 := by
      have hid : (u.x * w.y - u.y * w.x) * (v.x * v.x + v.y * v.y) =
          (u.x * v.y - u.y * v.x) * (v.x * w.x + v.y * w.y) +
          (u.x * v.x + u.y * v.y) * (v.x * w.y - v.y * w.x) := by ring
      rw [hid, hc1, hc2]
      ring
    exact (mul_eq_zero.mp key).resolve_right (ne_of_gt hvv)
  · have key2 : (u.x * w.x + u.y * w.y) * (v.x * v.x + v.y * v.y) =
        (u.x * v.x + u.y * v.y) * (v.x * w.x + v.y * w.y) := by
      have hid : (u.x * w.x + u.y * w.y) * (v.x * v.x + v.y * v.y) =
          (u.x * v.x + u.y * v.y) * (v.x * w.x + v.y * w.y) -
          (u.x * v.y - u.y * v.x) * (v.x * w.y - v.y * w.x) := by ring
      rw [hid, hc1]
      ring
    have hpos : 0 < (u.x * w.x + u.y * w.y) * (v.x * v.x + v.y * v.y) := by
      rw [key2]
      exact mul_pos hd1 hd2
    rcases mul_pos_iff.mp hpos with ⟨h1, _⟩ | ⟨_, h2⟩
    · exact h1
    · exact absurd hvv (not_lt.mpr (le_of_lt h2))

theorem sameDir_ne_zero {u v : Pt} (h : sameDir u v = true) :
    u ≠ ⟨0, 0⟩ ∧ v ≠ ⟨0, 0⟩ := by
  rw [sameDir_iff] at h
  obtain ⟨_, hd⟩ := h
  constructor
  · intro h0
    rw [h0] at hd
    simp [dot] at hd
  · intro h0
    rw [h0] at hd
    simp [dot] at hd

theorem sameDir_add {u v : Pt} (h : sameDir u v = true) :
    sameDir u ⟨u.x + v.x, u.y + v.y⟩ = true := by
  rw [sameDir_iff] at h ⊢
  obtain ⟨hc, hd⟩ := h
  simp only [cross, dot] at *
  constructor
  · linear_combination hc
  · nlinarith [mul_self_nonneg u.x, mul_self_nonneg u.y]

theorem isFlat_spread {a b c : Pt} (h : isFlat a b c = true) :
    sameDir (sub b a) (sub c a) = true := by
  have h2 := sameDir_add (u := sub b a) (v := sub c b) h
  have he : (⟨(sub b a).x + (sub c b).x, (sub b a).y + (sub c b).y⟩ : Pt)
      = sub c a := by
    simp only [sub, Pt.mk.injEq]
    constructor <;> ring
  rw [he] at h2
  exact h2

theorem sub_ne_zero_of_ne {a b : Pt} (h : sub b a ≠ ⟨0, 0⟩) : a ≠ b := by
  intro h0
  subst h0
  simp [sub] at h

theorem isFlat_ne {a b c : Pt} (h : isFlat a b c = true) :
    a ≠ b ∧ b ≠ c ∧ a ≠ c := by
  have h1 := sameDir_ne_zero (u := sub b a) (v := sub c b) h
  have h2 := sameDir_ne_zero (isFlat_spread h)
  exact ⟨sub_ne_zero_of_ne h1.1, sub_ne_zero_of_ne h1.2,
    sub_ne_zero_of_ne h2.2⟩

theorem removeIdenticals_cons_cons (a b : Pt) (rest : List Pt) :
    removeIdenticals (a :: b :: rest) =
      if a = b then removeIdenticals (b :: rest)
      else a :: removeIdenticals (b :: rest) := by
  simp [removeIdenticals]

theorem removeIdenticals_shape (l : List Pt) (a : Pt) :
    ∃ l', removeIdenticals (a :: l) = a :: l' := by
  induction l generalizing a with
  | nil => exact ⟨[], rfl⟩
  | cons b rest ih =>
    by_cases hab : a = b
    · subst hab
      obtain ⟨l', hl'⟩ := ih a
      exact ⟨l', by rw [removeIdenticals_cons_cons, if_pos rfl]; exact hl'⟩
    · exact ⟨removeIdenticals (b :: rest),
        by rw [removeIdenticals_cons_cons, if_neg hab]⟩

theorem removeIdenticals_noDupAdj (l : List Pt) :
    noDupAdj (removeIdenticals l) = true := by
  induction l with
  | nil => rfl
  | cons a rest ih =>
    cases rest with
    | nil => rfl
    | cons b rest2 =>
      by_cases hab : a = b
      · subst hab
        rw [removeIdenticals_cons_cons, if_pos rfl]
        exact ih
      · rw [removeIdenticals_cons_cons, if_neg hab]
        obtain ⟨l', hl'⟩ := removeIdenticals_shape rest2 b
        rw [hl']
        have ih2 : noDupAdj (b :: l') = true := by rw [← hl']; exact ih
        simp [noDupAdj, hab, ih2]

theorem removeIdenticals_id (l : List Pt) (h : noDupAdj l = true) :
    removeIdenticals l = l := by
  induction l with
  | nil => rfl
  | cons a rest ih =>
    cases rest with
    | nil => rfl
    | cons b rest2 =>
      simp only [noDupAdj, Bool.and_eq_true, decide_eq_true_eq] at h
      rw [removeIdenticals_cons_cons, if_neg h.1, ih h.2]

theorem removeFlatAngles_cons₃ (a b c : Pt) (rest : List Pt) :
    removeFlatAngles (a :: b :: c :: rest) =
      if isFlat a b c then removeFlatAngles (a :: c :: rest)
      else a :: removeFlatAngles (b :: c :: rest) := by
  simp [removeFlatAngles]

theorem removeFlatAngles_short (l : List Pt) (h : l.length ≤ 2) :
    removeFlatAngles l = l := by
  match l with
  | [] => simp [removeFlatAngles]
  | [a] => simp [removeFlatAngles]
  | [a, b] => simp [removeFlatAngles]
  | a :: b :: c :: rest => simp at h

theorem removeFlatAngles_shape_aux (n : ℕ) :
    ∀ l : List Pt, l.length ≤ n → ∀ a, ∃ l',
      removeFlatAngles (a :: l) = a :: l' := by
  induction n with
  | zero =>
    intro l hl a
    rw [List.length_eq_zero.mp (Nat.le_zero.mp hl)]
    exact ⟨[], removeFlatAngles_short [a] (by simp)⟩
  | succ n ih =>
    intro l hl a
    match l with
    | [] => exact ⟨[], removeFlatAngles_short [a] (by simp)⟩
    | [b] => exact ⟨[b], removeFlatAngles_short [a, b] (by simp)⟩
    | b :: c :: rest =>
      by_cases hflat : isFlat a b c = true
      · obtain ⟨l', hl'⟩ := ih (c :: rest) (by simp at hl ⊢; omega) a
        exact ⟨l', by rw [removeFlatAngles_cons₃, if_pos hflat]; exact hl'⟩
      · exact ⟨removeFlatAngles (b :: c :: rest),
          by rw [removeFlatAngles_cons₃,
            if_neg (by simpa using hflat)]⟩

theorem removeFlatAngles_shape (l : List Pt) (a : Pt) :
    ∃ l', removeFlatAngles (a :: l) = a :: l' :=
  removeFlatAngles_shape_aux l.length l le_rfl a

theorem removeFlatAngles_two_aux (n : ℕ) :
    ∀ l : List Pt, l.length ≤ n → ∀ a b, ∃ c l',
      removeFlatAngles (a :: b :: l) = a :: c :: l' ∧
      (c = b ∨ sameDir (sub c a) (sub b a) = true) := by
  induction n with
  | zero =>
    intro l hl a b
    rw [List.length_eq_zero.mp (Nat.le_zero.mp hl)]
    exact ⟨b, [], removeFlatAngles_short [a, b] (by simp), Or.inl rfl⟩
  | succ n ih =>
    intro l hl a b
    match l with
    | [] => exact ⟨b, [], removeFlatAngles_short [a, b] (by simp), Or.inl rfl⟩
    | c0 :: rest =>
      by_cases hflat : isFlat a b c0 = true
      · obtain ⟨c, l', hc, hdir⟩ := ih rest (by simp at hl ⊢; omega) a c0
        refine ⟨c, l', ?_, Or.inr ?_⟩
        · rw [removeFlatAngles_cons₃, if_pos hflat]
          exact hc
        · have hbc0 : sameDir (sub c0 a) (sub b a) = true :=
            sameDir_symm (isFlat_spread hflat)
          cases hdir with
          | inl h => rw [h]; exact hbc0
          | inr h => exact sameDir_trans h hbc0
      · obtain ⟨l', hl'⟩ := removeFlatAngles_shape (c0 :: rest) b
        refine ⟨b, l', ?_, Or.inl rfl⟩
        rw [removeFlatAngles_cons₃, if_neg (by simpa using hflat), hl']

theorem removeFlatAngles_two (l : List Pt) (a b : Pt) :
    ∃ c l', removeFlatAngles (a :: b :: l) = a :: c :: l' ∧
      (c = b ∨ sameDir (sub c a) (sub b a) = true) :=
  removeFlatAngles_two_aux l.length l le_rfl a b

theorem removeFlatAngles_noFlat_aux (n : ℕ) :
    ∀ l : List Pt, l.length ≤ n → noFlat (removeFlatAngles l) = true := by
  induction n with
  | zero =>
    intro l hl
    rw [List.length_eq_zero.mp (Nat.le_zero.mp hl),
      removeFlatAngles_short [] (by simp)]
    rfl
  | succ n ih =>
    intro l hl
    match l with
    | [] => rw [removeFlatAngles_short [] (by simp)]; rfl
    | [a] => rw [removeFlatAngles_short [a] (by simp)]; rfl
    | [a, b] => rw [removeFlatAngles_short [a, b] (by simp)]; rfl
    | a :: b :: c0 :: rest =>
      by_cases hflat : isFlat a b c0 = true
      · rw [removeFlatAngles_cons₃, if_pos hflat]
        exact ih (a :: c0 :: rest) (by simp at hl ⊢; omega)
      · rw [removeFlatAngles_cons₃, if_neg (by simpa using hflat)]
        obtain ⟨c, l', hc, hdir⟩ := removeFlatAngles_two rest b c0
        rw [hc]
        have h1 : isFlat a b c = false := by
          cases hdir with
          | inl h =>
            rw [h]
            exact Bool.eq_false_iff.mpr hflat
          | inr h =>
            by_contra hcon
            have htrue : isFlat a b c = true := by
              revert hcon
              cases isFlat a b c <;> simp
            exact hflat (sameDir_trans (u := sub b a) htrue h)
        have h2 : noFlat (b :: c :: l') = true := by
          rw [← hc]
          exact ih (b :: c0 :: rest) (by simp at hl ⊢; omega)
        simp [noFlat, h1, h2]

theorem removeFlatAngles_noFlat (l : List Pt) :
    noFlat (removeFlatAngles l) = true :=
  removeFlatAngles_noFlat_aux l.length l le_rfl

theorem removeFlatAngles_id (l : List Pt) (h : noFlat l = true) :
    removeFlatAngles l = l := by
  induction l with
  | nil => exact removeFlatAngles_short [] (by simp)
  | cons a rest ih =>
    cases rest with
    | nil => exact removeFlatAngles_short [a] (by simp)
    | cons b rest2 =>
      cases rest2 with
      | nil => exact removeFlatAngles_short [a, b] (by simp)
      | cons c rest3 =>
        simp only [noFlat, Bool.and_eq_true, Bool.not_eq_true'] at h
        rw [removeFlatAngles_cons₃, if_neg (by simp [h.1]), ih h.2]

theorem removeFlatAngles_noDupAdj_aux (n : ℕ) :
    ∀ l : List Pt, l.length ≤ n → noDupAdj l = true →
      noDupAdj (removeFlatAngles l) = true := by
  induction n with
  | zero =>
    intro l hl h
    rw [List.length_eq_zero.mp (Nat.le_zero.mp hl),
      removeFlatAngles_short [] (by simp)]
    rfl
  | succ n ih =>
    intro l hl h
    match l with
    | [] => rw [removeFlatAngles_short [] (by simp)]; rfl
    | [a] => rw [removeFlatAngles_short [a] (by simp)]; rfl
    | [a, b] => rw [removeFlatAngles_short [a, b] (by simp)]; exact h
    | a :: b :: c0 :: rest =>
      simp only [noDupAdj, Bool.and_eq_true, decide_eq_true_eq] at h
      by_cases hflat : isFlat a b c0 = true
      · rw [removeFlatAngles_cons₃, if_pos hflat]
        apply ih (a :: c0 :: rest) (by simp at hl ⊢; omega)
        have hac0 : a ≠ c0 := (isFlat_ne hflat).2.2
        simp only [noDupAdj, Bool.and_eq_true, decide_eq_true_eq]
        exact ⟨hac0, h.2.2⟩
      · rw [removeFlatAngles_cons₃, if_neg (by simpa using hflat)]
        obtain ⟨l', hl'⟩ := removeFlatAngles_shape (c0 :: rest) b
        rw [hl']
        have htail : noDupAdj (b :: l') = true := by
          rw [← hl']
          apply ih (b :: c0 :: rest) (by simp at hl ⊢; omega)
          simp only [noDupAdj, Bool.and_eq_true, decide_eq_true_eq]
          exact ⟨h.2.1, h.2.2⟩
        simp [noDupAdj, h.1, htail]

theorem removeFlatAngles_noDupAdj (l : List Pt) (h : noDupAdj l = true) :
    noDupAdj (removeFlatAngles l) = true :=
  removeFlatAngles_noDupAdj_aux l.length l le_rfl h

/-- Running the dedup-then-deflatten simplification twice changes nothing
after the first run. -/
theorem simplify_idem (w : List Pt) :
    removeFlatAngles (removeIdenticals (removeFlatAngles (removeIdenticals w)))
      = removeFlatAngles (removeIdenticals w) := by
  have h1 : noDupAdj (removeIdenticals w) = true := removeIdenticals_noDupAdj w
  have h2 : noDupAdj (removeFlatAngles (removeIdenticals w)) = true :=
    removeFlatAngles_noDupAdj _ h1
  have h3 : noFlat (removeFlatAngles (removeIdenticals w)) = true :=
    removeFlatAngles_noFlat _
  rw [removeIdenticals_id _ h2, removeFlatAngles_id _ h3]

theorem one_lt_dedup_length {l : List ℚ} {a b : ℚ} (ha : a ∈ l) (hb : b ∈ l)
    (hne : a ≠ b) : 1 < l.dedup.length := by
  have ha2 : a ∈ l.dedup := List.mem_dedup.mpr ha
  have hb2 : b ∈ l.dedup := List.mem_dedup.mpr hb
  match hd : l.dedup with
  | [] =>
    rw [hd] at ha2
    simp at ha2
  | [x] =>
    rw [hd] at ha2 hb2
    simp at ha2 hb2
    exact absurd (ha2.trans hb2.symm) hne
  | x :: y :: rest => simp

/-! ### Claim theorems -/

/-- C1, counterexample: the claim "the i-th returned waypath starts at
`ports1[i].position` and ends at `ports2[i].position`" fails.  With the
endpoint-recording single-pair router, on 2 valid pairs the first returned
route runs from `(0,0)` to `(50,0)`, but `ports1[0].position = (0,10)` and
`ports2[0].position = (50,0)`: the routes come back in internal group order
(group 1 first), paired by sorted position, not by the caller's indices. -/
theorem C1_counterexample_pairing_not_caller_aligned :
    udirectWaypoints (fun p q _ _ => (p.pos, q.pos))
      [⟨"P", 0, 10, 0, 1⟩, ⟨"Q", 0, 0, 0, 1⟩]
      [⟨"R", 50, 0, 0, 1⟩, ⟨"S", 50, 10, 0, 1⟩] 5 1 1 0 0 =
      .ok ⟨[(⟨0, 0⟩, ⟨50, 0⟩), (⟨0, 10⟩, ⟨50, 10⟩)],
           [⟨"R", 50, 0, 0, 1⟩, ⟨"S", 50, 10, 0, 1⟩]⟩ ∧
    Port.pos ⟨"P", 0, 10, 0, 1⟩ ≠ (⟨0, 0⟩ : Pt) := by
  constructor
  · norm_num [udirectWaypoints, udirectCore, directAxis, directZipA,
      splitGroups, midCut, groups, sortByQ, perpKey, listMin, listMax,
      longOffset, routeLoop, List.insertionSort, List.orderedInsert,
      Port.pos, List.dedup]
  · simp [Port.pos]

/-- C1, amended: for every valid request both routers return exactly N
waypaths, but in internal group order.  The direct router returns exactly the
group-ordered pairing `directPairing` (group 1 sorted descending, then group
2 ascending, zipped against the perpendicular-sorted partition of `ports2`);
the indirect router (under the side-router contract) returns one waypath per
start port, again keyed by the internal grouping, with no warning printed. -/
theorem C1_bundle_size_and_group_order :
    (∀ (ports1 ports2 : List Port) (separation ssl esl eso sso c : ℚ),
      ports2.length = ports1.length → ports1 ≠ [] →
      (∀ p ∈ ports1, p.orientationDeg = c) →
      (∀ p ∈ ports2, p.orientationDeg = c) →
      (c = 0 ∨ c = 90 ∨ c = 180 ∨ c = 270) →
      udirectWaypoints (fun p q _ _ => (p, q)) ports1 ports2 separation
          ssl esl eso sso =
        .ok ⟨directPairing ports1 ports2, directPorts2After ports1 ports2⟩ ∧
      (directPairing ports1 ports2).length = ports1.length) ∧
    (∀ (sideRouter : List Port → Dir → ℚ → SideResult)
      (routeFn : Port → Port → ℚ → ℚ → Frag)
      (ports1 ports2 : List Port) (separation extensionLength ssl esl c1 c2 : ℚ),
      SideContract sideRouter → ports2.length = ports1.length → ports1 ≠ [] →
      (∀ p ∈ ports1, p.orientationDeg = c1) →
      (∀ p ∈ ports2, p.orientationDeg = c2) →
      ((c1 = 0 ∧ c2 = 180) ∨ (c1 = 180 ∧ c2 = 0) ∨
        (c1 = 90 ∧ c2 = 270) ∨ (c1 = 270 ∧ c2 = 90)) →
      ∃ r, uindirectWaypoints sideRouter routeFn ports1 ports2 separation
          extensionLength ssl esl = ([], .ok r) ∧
        r.length = ports1.length) := by
  constructor
  · intro ports1 ports2 separation ssl esl eso sso c hlen hne h1 h2 hc
    refine ⟨?_, directPairing_length ports1 ports2 hlen⟩
    rw [udirect_ok (fun p q _ _ => (p, q)) ports1 ports2 separation
      ssl esl eso sso c hlen hne h1 h2 hc, routeLoop_pairs, routeLoop_pairs]
    rfl
  · intro sideRouter routeFn ports1 ports2 separation extensionLength ssl esl
      c1 c2 hS hlen hne h1 h2 hplan
    exact uindirect_ok sideRouter routeFn ports1 ports2 separation
      extensionLength ssl esl c1 c2 hS hlen hne h1 h2 hplan

/-- A concrete side router used by witnesses: it extends each port by one
unit fragment and reorients it toward the requested direction. -/
def demoSide : List Port → Dir → ℚ → SideResult :=
  fun g d _ =>
    ⟨g.map (fun p => [p.pos, ⟨p.x + 1, p.y + 1⟩]),
     g.map (fun p => { p with orientationDeg := dirAngle d })⟩

theorem demoSide_contract : SideContract demoSide := by
  intro g d e
  refine ⟨by simp [demoSide], by simp [demoSide], ?_⟩
  intro p hp
  simp only [demoSide, List.mem_map] at hp
  obtain ⟨q, _, rfl⟩ := hp
  rfl

/-- Witness for `C1_bundle_size_and_group_order` at concrete inputs. -/
theorem C1_bundle_size_and_group_order_witness :
    (udirectWaypoints (fun p q _ _ => (p, q))
        [⟨"a", 0, 0, 0, 1⟩] [⟨"b", 9, 0, 0, 1⟩] 5 1 1 0 0 =
      .ok ⟨directPairing [⟨"a", 0, 0, 0, 1⟩] [⟨"b", 9, 0, 0, 1⟩],
           directPorts2After [⟨"a", 0, 0, 0, 1⟩] [⟨"b", 9, 0, 0, 1⟩]⟩ ∧
      (directPairing [⟨"a", 0, 0, 0, 1⟩] [⟨"b", 9, 0, 0, 1⟩]).length = 1) ∧
    ∃ r, uindirectWaypoints demoSide (fun p q _ _ => [p.pos, q.pos])
        [⟨"c", 0, 0, 0, 1⟩] [⟨"d", 9, 0, 180, 1⟩] 5 0 1 1 = ([], .ok r) ∧
      r.length = 1 := by
  constructor
  · exact C1_bundle_size_and_group_order.1
      [⟨"a", 0, 0, 0, 1⟩] [⟨"b", 9, 0, 0, 1⟩] 5 1 1 0 0 0 rfl
      (by simp) (by decide) (by decide) (by norm_num)
  · exact C1_bundle_size_and_group_order.2 demoSide
      (fun p q _ _ => [p.pos, q.pos])
      [⟨"c", 0, 0, 0, 1⟩] [⟨"d", 9, 0, 180, 1⟩] 5 0 1 1 0 180
      demoSide_contract rfl (by simp) (by decide) (by decide)
      (by norm_num)

/-- C2 (code bug): the direct waypoint router sorts the caller-supplied
`ports2` list in place (`ports2.sort(key=...)`, source line 224/241): after a
call with `ports2 = [S, R]` (descending y) the caller's list has become
`[R, S]`, so caller-supplied sequences are NOT left unchanged.  (The public
entry `get_bundle_udirect` passes the caller's lists straight through; its
`.copy()` at line 106 feeds only the commented-out validation.) -/
theorem C2_direct_router_sorts_callers_ports2 :
    udirectWaypoints (fun p q _ _ => (p.pos, q.pos))
      [⟨"P", 0, 10, 0, 1⟩, ⟨"Q", 0, 0, 0, 1⟩]
      [⟨"S", 50, 10, 0, 1⟩, ⟨"R", 50, 0, 0, 1⟩] 5 1 1 0 0 =
      .ok ⟨[(⟨0, 0⟩, ⟨50, 0⟩), (⟨0, 10⟩, ⟨50, 10⟩)],
           [⟨"R", 50, 0, 0, 1⟩, ⟨"S", 50, 10, 0, 1⟩]⟩ ∧
    ([⟨"R", 50, 0, 0, 1⟩, ⟨"S", 50, 10, 0, 1⟩] : List Port) ≠
      [⟨"S", 50, 10, 0, 1⟩, ⟨"R", 50, 0, 0, 1⟩] := by
  constructor
  · norm_num [udirectWaypoints, udirectCore, directAxis, directZipA,
      splitGroups, midCut, groups, sortByQ, perpKey, listMin, listMax,
      longOffset, routeLoop, List.insertionSort, List.orderedInsert,
      Port.pos, List.dedup]
  · decide

/-- C3 (code bug): on the unsupported orientation pair (start 0°, end 90°)
the indirect router prints
`"u_undirect_bundle not designed to work in this case"` and then dies with
Python's `UnboundLocalError` (the directive lists were never assigned) — it
does not raise any `UnsupportedConfiguration`-style error. -/
theorem C3_unsupported_pair_prints_warning :
    uindirectWaypoints (fun _ _ _ => ⟨[], []⟩) (fun _ _ _ _ => [])
      [⟨"a", 0, 0, 0, 1⟩] [⟨"b", 10, 0, 90, 1⟩] 5 0 1 1 =
      (["u_undirect_bundle not designed to work in this case"],
       .error .nameError) ∧
    ∀ w, uindirectWaypoints (fun _ _ _ => ⟨[], []⟩) (fun _ _ _ _ => [])
      [⟨"a", 0, 0, 0, 1⟩] [⟨"b", 10, 0, 90, 1⟩] 5 0 1 1 ≠
      (w, .error .unsupportedConfiguration) := by
  have h1 : uindirectWaypoints (fun _ _ _ => ⟨[], []⟩) (fun _ _ _ _ => [])
      [⟨"a", 0, 0, 0, 1⟩] [⟨"b", 10, 0, 90, 1⟩] 5 0 1 1 =
      (["u_undirect_bundle not designed to work in this case"],
       .error .nameError) := by
    norm_num [uindirectWaypoints, uindirectPlan, directAxis, List.dedup]
  refine ⟨h1, fun w h => ?_⟩
  rw [h1] at h
  have h2 := congrArg Prod.snd h
  simp at h2

/-- C4, counterexample: two mutually facing one-port sets (orientations 0°
and 180°), each internally uniform, are REJECTED by the direct router: its
orientation check runs over `ports1 + ports2` combined (source line 192), so
the call raises the mixed-orientation `ValueError` instead of routing. -/
theorem C4_counterexample_facing_sets_rejected :
    udirectWaypoints (fun p q _ _ => (p.pos, q.pos))
      [⟨"a", 0, 0, 0, 1⟩] [⟨"b", 10, 0, 180, 1⟩] 5 1 1 0 0 =
      .error .mixedOrientations := by
  norm_num [udirectWaypoints, List.dedup]

/-- C4, amended: the direct router raises the mixed-orientation error
whenever the UNION `ports1 ++ ports2` contains two distinct orientations
(given matching lengths) — in particular mutually facing sets are rejected;
only inputs in which every port of both sets shares one orientation pass the
check. -/
theorem C4_union_orientation_check {α : Type}
    (f : Port → Port → ℚ → ℚ → α) (ports1 ports2 : List Port)
    (separation ssl esl eso sso : ℚ)
    (hlen : ports2.length = ports1.length)
    (p q : Port) (hp : p ∈ ports1 ++ ports2) (hq : q ∈ ports1 ++ ports2)
    (hne : p.orientationDeg ≠ q.orientationDeg) :
    udirectWaypoints f ports1 ports2 separation ssl esl eso sso =
      .error .mixedOrientations := by
  have hlt : 1 < ((ports1 ++ ports2).map Port.orientationDeg).dedup.length :=
    one_lt_dedup_length (List.mem_map_of_mem Port.orientationDeg hp)
      (List.mem_map_of_mem Port.orientationDeg hq) hne
  simp only [udirectWaypoints]
  rw [if_neg (not_not_intro hlen), if_pos hlt]

/-- Witness for `C4_union_orientation_check` at a concrete input. -/
theorem C4_union_orientation_check_witness :
    udirectWaypoints (fun p q _ _ => (p.pos, q.pos))
      [⟨"a", 0, 0, 0, 1⟩, ⟨"c", 0, 5, 0, 1⟩]
      [⟨"b", 10, 0, 180, 1⟩, ⟨"d", 10, 5, 180, 1⟩] 5 1 1 0 0 =
      .error .mixedOrientations :=
  C4_union_orientation_check (fun p q _ _ => (p.pos, q.pos))
    [⟨"a", 0, 0, 0, 1⟩, ⟨"c", 0, 5, 0, 1⟩]
    [⟨"b", 10, 0, 180, 1⟩, ⟨"d", 10, 5, 180, 1⟩] 5 1 1 0 0 rfl
    ⟨"a", 0, 0, 0, 1⟩ ⟨"b", 10, 0, 180, 1⟩ (by decide) (by decide)
    (by norm_num)

/-- C5 (code bug): `add_connections` silently skips a fragment whose start
point matches no open route's recorded endpoint.  With one open route ending
at `(1,0)` and a batch holding one fragment starting at `(5,5)` (far beyond
the 1e-9 tolerance), the dictionary is returned unchanged — the fragment is
dropped with no error of any kind (the function has no failure path at
all). -/
theorem C5_unmatched_fragment_silently_dropped :
    addConnections [[[⟨0, 0⟩, ⟨1, 0⟩]]] [[⟨5, 5⟩, ⟨6, 5⟩]] =
      [[[⟨0, 0⟩, ⟨1, 0⟩]]] := by
  norm_num [addConnections, lastPt, closePts, List.findIdx?]

/-- C6: within each subgroup the k-th routed pair (0-based, group order) is
invoked with start and end straight lengths `base + k * separation` on both
ends, and both counters restart from the base values for the second subgroup
(both `routeLoop`s below receive the same `directBaseStart`/`directBaseEnd`
arguments). -/
theorem C6_incrementing_straight_lengths (ports1 ports2 : List Port)
    (separation ssl esl eso sso c : ℚ)
    (hlen : ports2.length = ports1.length) (hne : ports1 ≠ [])
    (h1 : ∀ p ∈ ports1, p.orientationDeg = c)
    (h2 : ∀ p ∈ ports2, p.orientationDeg = c)
    (hc : c = 0 ∨ c = 90 ∨ c = 180 ∨ c = 270) :
    udirectWaypoints Call.mk ports1 ports2 separation ssl esl eso sso =
      .ok ⟨routeLoop Call.mk (directZip1 ports1 ports2)
             (directBaseStart ssl sso) (directBaseEnd esl eso ports1 ports2)
             separation ++
           routeLoop Call.mk (directZip2 ports1 ports2)
             (directBaseStart ssl sso) (directBaseEnd esl eso ports1 ports2)
             separation,
           directPorts2After ports1 ports2⟩ ∧
    ∀ (pairs : List (Port × Port)) (s e : ℚ) (k : ℕ)
      (hk : k < (routeLoop Call.mk pairs s e separation).length)
      (hk2 : k < pairs.length),
      ((routeLoop Call.mk pairs s e separation).get ⟨k, hk⟩).startLen =
        s + k * separation ∧
      ((routeLoop Call.mk pairs s e separation).get ⟨k, hk⟩).endLen =
        e + k * separation := by
  refine ⟨udirect_ok Call.mk ports1 ports2 separation ssl esl eso sso c
    hlen hne h1 h2 hc, ?_⟩
  intro pairs s e k hk hk2
  rw [routeLoop_call pairs s e separation k hk hk2]
  exact ⟨rfl, rfl⟩

/-- Witness for `C6_incrementing_straight_lengths` at a concrete input. -/
theorem C6_incrementing_straight_lengths_witness :
    udirectWaypoints Call.mk [⟨"a", 0, 0, 0, 1⟩] [⟨"b", 9, 0, 0, 1⟩]
        5 1 1 0 0 =
      .ok ⟨routeLoop Call.mk
             (directZip1 [⟨"a", 0, 0, 0, 1⟩] [⟨"b", 9, 0, 0, 1⟩])
             (directBaseStart 1 0)
             (directBaseEnd 1 0 [⟨"a", 0, 0, 0, 1⟩] [⟨"b", 9, 0, 0, 1⟩]) 5 ++
           routeLoop Call.mk
             (directZip2 [⟨"a", 0, 0, 0, 1⟩] [⟨"b", 9, 0, 0, 1⟩])
             (directBaseStart 1 0)
             (directBaseEnd 1 0 [⟨"a", 0, 0, 0, 1⟩] [⟨"b", 9, 0, 0, 1⟩]) 5,
           directPorts2After [⟨"a", 0, 0, 0, 1⟩] [⟨"b", 9, 0, 0, 1⟩]⟩ :=
  (C6_incrementing_straight_lengths [⟨"a", 0, 0, 0, 1⟩] [⟨"b", 9, 0, 0, 1⟩]
    5 1 1 0 0 0 rfl (by simp) (by decide) (by decide) (by norm_num)).1

/-- C7: in both routers `ports1` is split (`splitGroups`, used verbatim by
`directZipA` inside the direct router and by the indirect router) at the cut
`midCut = 0.5 * (min + max)` over PORTS2's perpendicular coordinates — the
other set's extent — and every port whose perpendicular coordinate is `≤ cut`
(ties included) lands in the first group, the rest in the second. -/
theorem C7_cross_set_split_rule (ports1 ports2 : List Port) (p : Port) :
    (p ∈ (splitGroups ports1 ports2).1 ↔
      p ∈ ports1 ∧
        perpKey (directAxis ports1) p ≤ midCut (directAxis ports1) ports2) ∧
    (p ∈ (splitGroups ports1 ports2).2 ↔
      p ∈ ports1 ∧
        ¬ perpKey (directAxis ports1) p ≤ midCut (directAxis ports1) ports2) :=
  groups_mem_iff ports1 (midCut (directAxis ports1) ports2)
    (directAxis ports1) p

/-- C8, counterexample: with `ports1 = [(100,0), 0°]`, `ports2 = [(0,0), 0°]`
the signed longitudinal offset is `dx = 100`; the single routed pair is
called with `end = max(1, 100) = 100` but `start = 1` — the base value,
untouched: `start_straight_length` is NOT extended symmetrically. -/
theorem C8_counterexample_start_not_extended :
    udirectWaypoints Call.mk [⟨"a", 100, 0, 0, 1⟩] [⟨"b", 0, 0, 0, 1⟩]
        5 1 1 0 0 =
      .ok ⟨[⟨⟨"a", 100, 0, 0, 1⟩, ⟨"b", 0, 0, 0, 1⟩, 1, 100⟩],
           [⟨"b", 0, 0, 0, 1⟩]⟩ ∧
    (1 : ℚ) ≠ 1 + 100 := by
  constructor
  · norm_num [udirectWaypoints, udirectCore, directAxis, directZipA,
      splitGroups, midCut, groups, sortByQ, perpKey, listMin, listMax,
      longOffset, routeLoop, List.insertionSort, List.orderedInsert,
      List.dedup]
  · norm_num

/-- C8, amended: before any pair is routed only `end_straight_length` is
extended, to `max(end_straight_length, d)` where `d` is the signed
longitudinal offset computed from the FIRST ports of the two caller lists
(`longOffset`), and `start_straight_length` is left at its base value
(`ssl + start_straight_offset`): the first call of every valid request uses
exactly these two lengths. -/
theorem C8_only_end_extended (ports1 ports2 : List Port)
    (separation ssl esl eso sso c : ℚ)
    (hlen : ports2.length = ports1.length) (hne : ports1 ≠ [])
    (h1 : ∀ p ∈ ports1, p.orientationDeg = c)
    (h2 : ∀ p ∈ ports2, p.orientationDeg = c)
    (hc : c = 0 ∨ c = 90 ∨ c = 180 ∨ c = 270) :
    ∃ (pr : Port × Port) (rest : List Call),
      udirectWaypoints Call.mk ports1 ports2 separation ssl esl eso sso =
        .ok ⟨Call.mk pr.1 pr.2 (ssl + sso)
              (max esl (longOffset ports1 ports2) + eso) :: rest,
             directPorts2After ports1 ports2⟩ :=
  direct_first_call ports1 ports2 separation ssl esl eso sso c
    hlen hne h1 h2 hc

/-- Witness for `C8_only_end_extended` at a concrete input. -/
theorem C8_only_end_extended_witness :
    ∃ (pr : Port × Port) (rest : List Call),
      udirectWaypoints Call.mk [⟨"a", 100, 0, 0, 1⟩] [⟨"b", 0, 0, 0, 1⟩]
          5 1 1 0 0 =
        .ok ⟨Call.mk pr.1 pr.2 (1 + 0)
              (max 1 (longOffset [⟨"a", 100, 0, 0, 1⟩] [⟨"b", 0, 0, 0, 1⟩])
                + 0) :: rest,
             directPorts2After [⟨"a", 100, 0, 0, 1⟩] [⟨"b", 0, 0, 0, 1⟩]⟩ :=
  C8_only_end_extended [⟨"a", 100, 0, 0, 1⟩] [⟨"b", 0, 0, 0, 1⟩]
    5 1 1 0 0 0 rfl (by simp) (by decide) (by decide) (by norm_num)

/-- C9: the connection assembler (`mergeConnections`) concatenates a route's
ordered fragments dropping the first point of every fragment after the first,
removes exact-duplicate consecutive points (`removeIdenticals`) and
flat-angle interior points (`removeFlatAngles`), and is idempotent: running
it again on the already-assembled waypath returns it unchanged, with no
further points removed. -/
theorem C9_assembler_idempotent (frags : List Frag) :
    mergeConnections [mergeConnections frags] = mergeConnections frags := by
  cases frags with
  | nil =>
    show mergeConnections [[]] = []
    simp only [mergeConnections, List.map_nil, List.flatten_nil,
      List.append_nil]
    rw [show removeIdenticals [] = [] from rfl,
      removeFlatAngles_short [] (by simp)]
  | cons f rest =>
    simp only [mergeConnections, List.map_nil, List.flatten_nil,
      List.append_nil]
    exact simplify_idem _

/-- C10: the public direct entry point forwards the caller's
`end_straight_length` as `end_straight_offset` on top of the internal base
(default `0.01`, possibly raised to the longitudinal offset), so the first
routed pair's effective end straight length is
`max(0.01, longOffset) + end_straight_length` — the caller's value is added
to the base, it does not replace it. -/
theorem C10_end_straight_forwarded_as_offset (ports1 ports2 : List Port)
    (separation ssl endStraightLen c : ℚ)
    (hlen : ports2.length = ports1.length) (hne : ports1 ≠ [])
    (h1 : ∀ p ∈ ports1, p.orientationDeg = c)
    (h2 : ∀ p ∈ ports2, p.orientationDeg = c)
    (hc : c = 0 ∨ c = 90 ∨ c = 180 ∨ c = 270) :
    ∃ (pr : Port × Port) (rest : List Call),
      getBundleUdirectCalls ports1 ports2 separation ssl endStraightLen =
        .ok ⟨Call.mk pr.1 pr.2 (ssl + 0)
              (max (1/100) (longOffset ports1 ports2) + endStraightLen)
              :: rest,
             directPorts2After ports1 ports2⟩ :=
  direct_first_call ports1 ports2 separation ssl (1/100) endStraightLen 0 c
    hlen hne h1 h2 hc

/-- Witness for `C10_end_straight_forwarded_as_offset` at a concrete
input. -/
theorem C10_end_straight_forwarded_as_offset_witness :
    ∃ (pr : Port × Port) (rest : List Call),
      getBundleUdirectCalls [⟨"a", 100, 0, 0, 1⟩] [⟨"b", 0, 0, 0, 1⟩] 5 1 7 =
        .ok ⟨Call.mk pr.1 pr.2 (1 + 0)
              (max (1/100)
                (longOffset [⟨"a", 100, 0, 0, 1⟩] [⟨"b", 0, 0, 0, 1⟩]) + 7)
              :: rest,
             directPorts2After [⟨"a", 100, 0, 0, 1⟩] [⟨"b", 0, 0, 0, 1⟩]⟩ :=
  C10_end_straight_forwarded_as_offset [⟨"a", 100, 0, 0, 1⟩]
    [⟨"b", 0, 0, 0, 1⟩] 5 1 7 0 rfl (by simp) (by decide) (by decide)
    (by norm_num)

end BundleU
